/-
Verification of the GraphRAG agent's retrieval pipeline against its design
specification.

The backend's text splitter (`SimpleTextSplitter.split_text` in
`backend/document_processor.py`) is embedded faithfully below: Python string
positions are integers (they may in principle go negative), slicing follows
Python semantics, and the `while` loop is modelled with an explicit iteration
budget (`fuel`), so that termination of the loop is a provable statement
rather than an assumption.
-/
import Mathlib

namespace GraphRAG

/-- Resolution of one Python slice index against a string of length `n`:
a negative index counts from the end, and the result is clamped into
`[0, n]`. -/
def pyIdx (n : Nat) (i : Int) : Nat :=
  if i < 0 then ((n : Int) + i).toNat else min i.toNat n

/-- Python slice `s[a:b]` on a string modelled as a list of characters. -/
def pySlice (s : List Char) (a b : Int) : List Char :=
  (s.take (pyIdx s.length b)).drop (pyIdx s.length a)

/-- The configuration state of `SimpleTextSplitter`
(`backend/document_processor.py`): a chunk size and a chunk overlap,
both taken from the application settings. -/
structure SimpleTextSplitter where
  chunk_size : Nat
  chunk_overlap : Nat
deriving DecidableEq, Repr

/-- The `while start < len(text)` loop of `SimpleTextSplitter.split_text`:

```
chunks = []
start = 0
while start < len(text):
    end = start + self.chunk_size
    chunks.append(text[start:end])
    start += self.chunk_size - self.chunk_overlap
return chunks
```

`fuel` bounds the number of loop iterations; the result is `none` exactly
when the budget is exhausted while the loop condition still holds, so
`(splitGo ...).isSome` for some finite fuel expresses that the loop
terminates. -/
def splitGo (cs ov : Nat) (text : List Char) : Nat → Int → Option (List (List Char))
  | 0, start => if start < (text.length : Int) then none else some []
  | fuel + 1, start =>
      if start < (text.length : Int) then
        (splitGo cs ov text fuel (start + ((cs : Int) - (ov : Int)))).map
          (fun rest => pySlice text start (start + (cs : Int)) :: rest)
      else
        some []

/-- `SimpleTextSplitter.split_text`, run with an iteration budget of
`text.length + 1`, which suffices for every valid configuration. -/
def SimpleTextSplitter.split_text (s : SimpleTextSplitter) (text : List Char) :
    Option (List (List Char)) :=
  splitGo s.chunk_size s.chunk_overlap text (text.length + 1) 0

/-- The all-or-nothing error taxonomy of the design (§7 of the spec). -/
inductive AppError where
  | configurationError
  | embeddingUnavailable
  | storageUnavailable
  | notFound
  | unsupportedFormat
  | cloneFailed
deriving DecidableEq, Repr

/-- Modelled from the spec: the constructor of `SimpleTextSplitter` is not part
of the sources (only the `split_text` body is quoted in the documentation), and
the spec requires that "if `overlap >= chunkSize`, fails with a configuration
error (infinite/non-advancing loop risk) — must be validated at
construction". -/
def mkSplitter (chunkSize overlap : Nat) : Except AppError SimpleTextSplitter :=
  if chunkSize ≤ overlap then .error .configurationError
  else .ok ⟨chunkSize, overlap⟩

/-- Concatenation of a chunk sequence with the first `ov` characters of every
chunk after the first removed. -/
def joinWithOverlapRemoved (ov : Nat) : List (List Char) → List Char
  | [] => []
  | c :: rest => c ++ (rest.map (List.drop ov)).flatten

lemma pyIdx_of_nonneg {n : Nat} {i : Int} (h : 0 ≤ i) : pyIdx n i = min i.toNat n := by
  unfold pyIdx
  rw [if_neg (by omega)]

/-- For a nonnegative start position, the Python slice `s[a : a + cs]` is
`(s.drop a).take cs`. -/
lemma pySlice_nonneg (s : List Char) (a : Int) (cs : Nat) (ha : 0 ≤ a) :
    pySlice s a (a + (cs : Int)) = (s.drop a.toNat).take cs := by
  unfold pySlice
  rw [pyIdx_of_nonneg ha, pyIdx_of_nonneg (by omega)]
  have htn : (a + (cs : Int)).toNat = a.toNat + cs := by omega
  rw [htn]
  rcases le_or_lt s.length a.toNat with h | h
  · have h1 : min a.toNat s.length = s.length := by omega
    have h2 : min (a.toNat + cs) s.length = s.length := by omega
    rw [h1, h2, List.take_length, List.drop_eq_nil_iff.mpr h]
    simp [List.drop_eq_nil_iff.mpr (le_refl s.length)]
  · have h1 : min a.toNat s.length = a.toNat := by omega
    rw [h1, List.drop_take, List.take_eq_take]
    simp only [List.length_drop]
    omega

/-- The splitter loop exits within `k` iterations whenever `k` covers the
distance to the end of the text (each iteration advances the position by at
least one for a valid configuration). -/
lemma splitGo_isSome (cs ov : Nat) (text : List Char) (hov : ov < cs) :
    ∀ (k : Nat) (start : Int), 0 ≤ start → (text.length : Int) ≤ start + k →
      (splitGo cs ov text k start).isSome := by
  intro k
  induction k with
  | zero =>
    intro start h0 hb
    simp only [splitGo]
    rw [if_neg (by omega)]
    simp
  | succ n ih =>
    intro start h0 hb
    simp only [splitGo]
    by_cases h : start < (text.length : Int)
    · rw [if_pos h]
      have hrec := ih (start + ((cs : Int) - (ov : Int))) (by omega) (by omega)
      obtain ⟨L, hL⟩ := Option.isSome_iff_exists.mp hrec
      rw [hL]
      simp
    · rw [if_neg h]
      simp

/-- Characterization of the splitter's output: the `i`-th emitted chunk is the
`chunk_size`-character slice starting `i * (chunk_size - chunk_overlap)`
characters after the loop's starting position. -/
lemma splitGo_get (cs ov : Nat) (text : List Char) (hov : ov < cs) :
    ∀ (k : Nat) (start : Int), 0 ≤ start →
      ∀ (L : List (List Char)), splitGo cs ov text k start = some L →
        ∀ (i : Nat) (hi : i < L.length),
          L.get ⟨i, hi⟩ = (text.drop (start.toNat + i * (cs - ov))).take cs := by
  intro k
  induction k with
  | zero =>
    intro start h0 L hL i hi
    simp only [splitGo] at hL
    by_cases h : start < (text.length : Int)
    · rw [if_pos h] at hL
      exact absurd hL (by simp)
    · rw [if_neg h] at hL
      cases hL
      exact absurd hi (by simp)
  | succ n ih =>
    intro start h0 L hL i hi
    simp only [splitGo] at hL
    by_cases h : start < (text.length : Int)
    · rw [if_pos h] at hL
      rcases Option.map_eq_some'.mp hL with ⟨L', hL', hcons⟩
      subst hcons
      match i with
      | 0 =>
        simp only [List.get, pySlice_nonneg text start cs h0, Nat.zero_mul, Nat.add_zero]
      | Nat.succ j =>
        have hj : j < L'.length := by
          simpa using hi
        have := ih (start + ((cs : Int) - (ov : Int))) (by omega) L' hL' j hj
        have htn : (start + ((cs : Int) - (ov : Int))).toNat = start.toNat + (cs - ov) := by
          omega
        rw [htn] at this
        have harith : start.toNat + (cs - ov) + j * (cs - ov) =
            start.toNat + (j + 1) * (cs - ov) := by
          ring
        rw [harith] at this
        simpa using this
    · rw [if_neg h] at hL
      cases hL
      exact absurd hi (by simp)

/-- Dropping the first `chunk_overlap` characters of each chunk and
concatenating reproduces the text from `chunk_overlap` characters past the
loop's starting position onward. -/
lemma splitGo_dropJoin (cs ov : Nat) (text : List Char) (hov : ov < cs) :
    ∀ (k : Nat) (start : Int), 0 ≤ start →
      ∀ (L : List (List Char)), splitGo cs ov text k start = some L →
        (L.map (List.drop ov)).flatten = text.drop (start.toNat + ov) := by
  intro k
  induction k with
  | zero =>
    intro start h0 L hL
    simp only [splitGo] at hL
    by_cases h : start < (text.length : Int)
    · rw [if_pos h] at hL
      exact absurd hL (by simp)
    · rw [if_neg h] at hL
      cases hL
      simp [Eq.symm (List.drop_eq_nil_iff.mpr (by omega : text.length ≤ start.toNat + ov))]
  | succ n ih =>
    intro start h0 L hL
    simp only [splitGo] at hL
    by_cases h : start < (text.length : Int)
    · rw [if_pos h] at hL
      rcases Option.map_eq_some'.mp hL with ⟨L', hL', hcons⟩
      subst hcons
      have hrest := ih (start + ((cs : Int) - (ov : Int))) (by omega) L' hL'
      have htn : (start + ((cs : Int) - (ov : Int))).toNat + ov = start.toNat + cs := by
        omega
      rw [htn] at hrest
      have hchunk : pySlice text start (start + (cs : Int)) =
          (text.drop start.toNat).take cs := pySlice_nonneg text start cs h0
      simp only [List.map_cons, List.flatten_cons, hrest, hchunk]
      rw [List.drop_take, List.drop_drop]
      have hd : text.drop (start.toNat + cs) =
          (text.drop (start.toNat + ov)).drop (cs - ov) := by
        rw [List.drop_drop]
        congr 1
        omega
      rw [hd, List.take_append_drop]
    · rw [if_neg h] at hL
      cases hL
      simp [Eq.symm (List.drop_eq_nil_iff.mpr (by omega : text.length ≤ start.toNat + ov))]

/-- Claim C1 counterexample: on the input `"abcdefghij"` with `chunkSize = 4`
and `overlap = 1`, `split_text` does NOT return the three chunks
`["abcd", "defg", "ghij"]` stated by the spec: the loop runs once more at
position 9 and also emits the trailing remainder `"j"`. -/
theorem split_text_abcdefghij_not_three_chunks :
    SimpleTextSplitter.split_text ⟨4, 1⟩ "abcdefghij".toList ≠
      some ["abcd".toList, "defg".toList, "ghij".toList] := by
  decide

/-- Claim C1 (amended): for the input text `"abcdefghij"` with `chunkSize = 4`
and `overlap = 1`, the Text Splitter's split operation returns exactly the
sequence `["abcd", "defg", "ghij", "j"]`: it takes `chunkSize` characters at
each position and advances the position by `chunkSize - overlap` while the
position is below the text length, so the final position 9 still emits the
remainder chunk `"j"`. -/
theorem split_text_abcdefghij :
    SimpleTextSplitter.split_text ⟨4, 1⟩ "abcdefghij".toList =
      some ["abcd".toList, "defg".toList, "ghij".toList, "j".toList] := by
  decide

/-- Claim C2: for every configuration with `overlap >= chunkSize`, constructing
the Text Splitter fails with a `ConfigurationError` (construction-time
validation, modelled from the spec since the constructor body is not in the
sources), and for every splitter that construction does hand out, `split_text`
terminates on every input text: the loop exits within `text.length + 1`
iterations, never entering a non-advancing loop. -/
theorem splitter_validation_and_termination :
    (∀ chunkSize overlap, chunkSize ≤ overlap →
        mkSplitter chunkSize overlap = Except.error AppError.configurationError) ∧
    (∀ chunkSize overlap s, mkSplitter chunkSize overlap = Except.ok s →
        ∀ text, (s.split_text text).isSome) := by
  constructor
  · intro chunkSize overlap hle
    unfold mkSplitter
    rw [if_pos hle]
  · intro chunkSize overlap s hmk text
    unfold mkSplitter at hmk
    by_cases hle : chunkSize ≤ overlap
    · rw [if_pos hle] at hmk
      exact absurd hmk (by simp)
    · rw [if_neg hle] at hmk
      cases hmk
      exact splitGo_isSome chunkSize overlap text (by omega) (text.length + 1) 0
        (by omega) (by omega)

/-- Witness for C2 at concrete inputs: `chunkSize = 3, overlap = 5` is rejected
with a `ConfigurationError`, and the validly constructed `⟨4, 1⟩` splitter
terminates on `"abcdefghij"`. -/
theorem splitter_validation_and_termination_witness :
    mkSplitter 3 5 = Except.error AppError.configurationError ∧
      (SimpleTextSplitter.split_text ⟨4, 1⟩ "abcdefghij".toList).isSome :=
  ⟨splitter_validation_and_termination.1 3 5 (by decide),
   splitter_validation_and_termination.2 4 1 ⟨4, 1⟩ rfl "abcdefghij".toList⟩

/-- Claim C3: for every input text (including the empty text) and every valid
configuration with `overlap < chunkSize`, concatenating the chunks returned by
`split_text` with the first `overlap` characters of every chunk after the
first removed reconstructs the original text exactly. -/
theorem split_text_reconstructs (s : SimpleTextSplitter) (text : List Char)
    (h : s.chunk_overlap < s.chunk_size) :
    ∃ chunks, s.split_text text = some chunks ∧
      joinWithOverlapRemoved s.chunk_overlap chunks = text := by
  obtain ⟨chunks, hc⟩ := Option.isSome_iff_exists.mp
    (splitGo_isSome s.chunk_size s.chunk_overlap text h (text.length + 1) 0
      (by omega) (by omega))
  refine ⟨chunks, hc, ?_⟩
  rcases Nat.eq_zero_or_pos text.length with hn | hn
  · simp only [splitGo, hn] at hc
    rw [if_neg (by omega)] at hc
    cases hc
    simp [joinWithOverlapRemoved, List.length_eq_zero.mp hn]
  · simp only [splitGo] at hc
    rw [if_pos (by exact_mod_cast hn)] at hc
    rcases Option.map_eq_some'.mp hc with ⟨L', hL', hcons⟩
    subst hcons
    have hrest := splitGo_dropJoin s.chunk_size s.chunk_overlap text h text.length
      (0 + ((s.chunk_size : Int) - (s.chunk_overlap : Int))) (by omega) L' hL'
    have htn : (0 + ((s.chunk_size : Int) - (s.chunk_overlap : Int))).toNat +
        s.chunk_overlap = s.chunk_size := by omega
    rw [htn] at hrest
    have hchunk : pySlice text 0 (0 + (s.chunk_size : Int)) =
        text.take s.chunk_size := by
      rw [pySlice_nonneg text 0 s.chunk_size (by omega)]
      simp
    simp only [joinWithOverlapRemoved, hchunk, hrest, List.take_append_drop]

/-- Witness for C3 at a concrete input: the `⟨4, 1⟩` splitter on
`"abcdefghij"`. -/
theorem split_text_reconstructs_witness :
    ∃ chunks, SimpleTextSplitter.split_text ⟨4, 1⟩ "abcdefghij".toList = some chunks ∧
      joinWithOverlapRemoved 1 chunks = "abcdefghij".toList :=
  split_text_reconstructs ⟨4, 1⟩ "abcdefghij".toList (by decide)

/-- Claim C10: for every input text and every configuration with
`overlap < chunkSize`, every chunk returned by `split_text` has length at most
`chunkSize` (never `chunkSize + overlap`), and the `i`-th chunk is exactly the
substring of the input starting at offset `i * (chunkSize - overlap)`. -/
theorem split_text_chunk_offsets (s : SimpleTextSplitter) (text : List Char)
    (h : s.chunk_overlap < s.chunk_size) :
    ∃ chunks, s.split_text text = some chunks ∧
      ∀ (i : Nat) (hi : i < chunks.length),
        chunks.get ⟨i, hi⟩ =
          (text.drop (i * (s.chunk_size - s.chunk_overlap))).take s.chunk_size ∧
        (chunks.get ⟨i, hi⟩).length ≤ s.chunk_size := by
  obtain ⟨chunks, hc⟩ := Option.isSome_iff_exists.mp
    (splitGo_isSome s.chunk_size s.chunk_overlap text h (text.length + 1) 0
      (by omega) (by omega))
  refine ⟨chunks, hc, ?_⟩
  intro i hi
  have hg := splitGo_get s.chunk_size s.chunk_overlap text h (text.length + 1) 0
    (by omega) chunks hc i hi
  simp only [Int.toNat_zero, Nat.zero_add] at hg
  exact ⟨hg, by rw [hg]; exact List.length_take_le _ _⟩

/-- Witness for C10 at a concrete input: the `⟨4, 1⟩` splitter on
`"abcdefghij"`. -/
theorem split_text_chunk_offsets_witness :
    ∃ chunks, SimpleTextSplitter.split_text ⟨4, 1⟩ "abcdefghij".toList = some chunks ∧
      ∀ (i : Nat) (hi : i < chunks.length),
        chunks.get ⟨i, hi⟩ = ("abcdefghij".toList.drop (i * 3)).take 4 ∧
        (chunks.get ⟨i, hi⟩).length ≤ 4 :=
  split_text_chunk_offsets ⟨4, 1⟩ "abcdefghij".toList (by decide)

/-- The string rendering `str(e)` of a raised error, as Python's `f"{str(e)}"`
produces it. -/
def AppError.str : AppError → String
  | .configurationError => "ConfigurationError"
  | .embeddingUnavailable => "EmbeddingUnavailable"
  | .storageUnavailable => "StorageUnavailable"
  | .notFound => "NotFound"
  | .unsupportedFormat => "UnsupportedFormat"
  | .cloneFailed => "CloneFailed"

/-- The response dictionary shape returned by `query_knowledge_base`
(`backend/mcp_service.py`): a response text, a source list, and an optional
`error` string field. -/
structure QueryResponse where
  response : String
  sources : List String
  error : Option String
deriving DecidableEq, Repr

/-- `query_knowledge_base` (`backend/mcp_service.py`, quoted in
ADK_MCP_INTEGRATION.md). The embedding/search/generation pipeline is passed in
as its outcome — `.error e` when any step raises `e` — and the function's
`try/except` returns an ordinary response value in both cases:

```
try:
    initialize_services()
    query_embedding = embedding_service.embed_text(question)
    chunks = graph_store.vector_search(query_embedding, top_k)
    response_text = _generate_response_with_gemini(question, chunks)
    return \x7b"response": response_text, "sources": [...], ...\x7d
except Exception as e:
    return \x7b"response": f"Error: \x7bstr(e)\x7d", "sources": [], "error": str(e)\x7d
```
-/
def query_knowledge_base (pipeline : Except AppError (String × List String)) :
    QueryResponse :=
  match pipeline with
  | .ok (text, srcs) => ⟨text, srcs, none⟩
  | .error e => ⟨"Error: " ++ e.str, [], some e.str⟩

/-- A response that looks successful — an ordinary `QueryResponse` value, not a
typed failure — but carries the failure only as generic strings: the response
text is `"Error: " ++ msg` and the `error` field repeats the message. -/
def swallowsErrorIntoString (r : QueryResponse) : Prop :=
  ∃ msg, r.error = some msg ∧ r.response = "Error: " ++ msg

/-- Claim C5 counterexample: when the pipeline fails with
`StorageUnavailable`, `query_knowledge_base` does not propagate a typed
result — it returns a successful-looking response embedding the error as a
generic string, refuting the claim that no operation does so. -/
theorem query_knowledge_base_swallows_storage_error :
    swallowsErrorIntoString
      (query_knowledge_base (Except.error AppError.storageUnavailable)) :=
  ⟨"StorageUnavailable", rfl, rfl⟩

/-- Claim C5 (amended): every error raised inside `query_knowledge_base`'s
pipeline is caught by its `try/except` and surfaced as an ordinary response
whose text is `"Error: " ++ str(e)` with an empty source list and the message
duplicated in the `error` string field — a typed error value never reaches the
caller. -/
theorem query_knowledge_base_error_shape (e : AppError) :
    query_knowledge_base (Except.error e) =
      ⟨"Error: " ++ e.str, [], some e.str⟩ := rfl

/-- A stored Chunk node, with the flattened scalar properties of the graph
schema (`id`, `content`, `chunk_index`, and for code chunks `file_path`); the
`BELONGS_TO` edge is the `docId` field. -/
structure StoredChunk where
  chunkId : Nat
  docId : String
  content : List Char
  chunk_index : Nat
  file_path : Option String
deriving DecidableEq, Repr

/-- A stored Document node with its recorded chunk count. -/
structure StoredDoc where
  docId : String
  filename : String
  num_chunks : Nat
deriving DecidableEq, Repr

/-- Modelled from the spec: the Graph Store state. `backend/graph_store.py` is
not in the sources; the documentation gives only its node/relationship schema
(Document and Chunk nodes, `BELONGS_TO` and `NEXT_IN_FILE` relationships).
Edges are pairs of chunk ids. -/
structure GraphStore where
  docs : List StoredDoc
  chunks : List StoredChunk
  edges : List (Nat × Nat)
  nextId : Nat
deriving DecidableEq, Repr

/-- Whether a Document node with the given id exists. -/
def GraphStore.docExists (st : GraphStore) (id : String) : Bool :=
  st.docs.any (fun d => d.docId = id)

/-- Modelled from the spec: `get_document_chunks` returns the chunks linked to
the given document (chunks are stored in ordinal order, so filtering preserves
the order), and `NotFound` when the id does not exist. -/
def GraphStore.get_document_chunks (st : GraphStore) (id : String) :
    Except AppError (List StoredChunk) :=
  if st.docExists id then .ok (st.chunks.filter (fun c => c.docId = id))
  else .error .notFound

/-- Modelled from the spec: ingestion of one uploaded document — the Document
node is created first, then one Chunk per split piece with its ordinal
position, and the final chunk count is recorded on the Document. -/
def GraphStore.ingestDocument (st : GraphStore) (id filename : String)
    (pieces : List (List Char)) : GraphStore :=
  { docs := st.docs ++ [⟨id, filename, pieces.length⟩],
    chunks := st.chunks ++ (pieces.enum.map fun p => ⟨st.nextId + p.1, id, p.2, p.1, none⟩),
    edges := st.edges,
    nextId := st.nextId + pieces.length }

/-- Modelled from the spec: `delete_document` removes the Document, cascades
deletion to all linked Chunks and to edges that referenced them, and fails
with `NotFound` for an id that does not exist. -/
def GraphStore.delete_document (st : GraphStore) (id : String) :
    Except AppError GraphStore :=
  if st.docExists id then
    let keep := st.chunks.filter (fun c => c.docId ≠ id)
    .ok { docs := st.docs.filter (fun d => d.docId ≠ id),
          chunks := keep,
          edges := st.edges.filter (fun e =>
            keep.any (fun c => c.chunkId = e.1) && keep.any (fun c => c.chunkId = e.2)),
          nextId := st.nextId }
  else .error .notFound

/-- Claim C6: after every successful ingestion into a store in which the new
document id is fresh, the stored Document's recorded chunk count equals the
number of Chunk entities linked to that Document, i.e. the number of chunks
returned by `get_document_chunks` for its identifier. -/
theorem ingest_chunk_count (st : GraphStore) (id filename : String)
    (pieces : List (List Char))
    (hfresh : ∀ d ∈ st.docs, d.docId ≠ id)
    (hchunks : ∀ c ∈ st.chunks, c.docId ≠ id) :
    ∃ d chunks,
      (st.ingestDocument id filename pieces).docs.find? (fun d => d.docId = id) =
        some d ∧
      (st.ingestDocument id filename pieces).get_document_chunks id =
        Except.ok chunks ∧
      d.num_chunks = chunks.length := by
  refine ⟨⟨id, filename, pieces.length⟩,
    pieces.enum.map fun p => (⟨st.nextId + p.1, id, p.2, p.1, none⟩ : StoredChunk),
    ?_, ?_, ?_⟩
  · rw [GraphStore.ingestDocument, List.find?_append]
    have hnone : st.docs.find? (fun d => d.docId = id) = none := by
      rw [List.find?_eq_none]
      intro d hd
      simpa using hfresh d hd
    rw [hnone]
    simp
  · have hex : (st.ingestDocument id filename pieces).docExists id = true := by
      rw [GraphStore.ingestDocument, GraphStore.docExists]
      simp
    rw [GraphStore.get_document_chunks, if_pos hex]
    congr 1
    simp only [GraphStore.ingestDocument, List.filter_append]
    have h1 : st.chunks.filter (fun c => decide (c.docId = id)) = [] := by
      rw [List.filter_eq_nil_iff]
      intro c hc
      simpa using hchunks c hc
    have h2 : (pieces.enum.map fun p =>
        (⟨st.nextId + p.1, id, p.2, p.1, none⟩ : StoredChunk)).filter
          (fun c => decide (c.docId = id)) =
        pieces.enum.map fun p => (⟨st.nextId + p.1, id, p.2, p.1, none⟩ : StoredChunk) := by
      rw [List.filter_eq_self]
      intro c hc
      rcases List.mem_map.mp hc with ⟨p, _, rfl⟩
      simp
    rw [h1, h2]
    simp
  · simp

/-- Witness for C6 at a concrete input: ingesting two pieces into the empty
store. -/
theorem ingest_chunk_count_witness :
    ∃ d chunks,
      ((GraphStore.mk [] [] [] 0).ingestDocument "doc1" "file.txt"
          ["ab".toList, "cd".toList]).docs.find? (fun d => d.docId = "doc1") =
        some d ∧
      ((GraphStore.mk [] [] [] 0).ingestDocument "doc1" "file.txt"
          ["ab".toList, "cd".toList]).get_document_chunks "doc1" =
        Except.ok chunks ∧
      d.num_chunks = chunks.length :=
  ingest_chunk_count (GraphStore.mk [] [] [] 0) "doc1" "file.txt"
    ["ab".toList, "cd".toList] (by simp) (by simp)

/-- Claim C7: for every existing document id, `delete_document` succeeds and
removes the Document and cascades to all linked Chunks and edges — afterwards
`get_document_chunks` for that id returns `NotFound`, no chunk referencing the
id remains, and no edge dangles on a deleted chunk; for every id that does not
exist, `delete_document` fails with `NotFound` rather than silently
succeeding. -/
theorem delete_document_spec (st : GraphStore) (id : String) :
    ((∃ d ∈ st.docs, d.docId = id) →
      ∃ st', st.delete_document id = Except.ok st' ∧
        st'.get_document_chunks id = Except.error AppError.notFound ∧
        (∀ c ∈ st'.chunks, c.docId ≠ id) ∧
        (∀ e ∈ st'.edges, (∃ c ∈ st'.chunks, c.chunkId = e.1) ∧
          (∃ c ∈ st'.chunks, c.chunkId = e.2))) ∧
    ((∀ d ∈ st.docs, d.docId ≠ id) →
      st.delete_document id = Except.error AppError.notFound) := by
  constructor
  · intro hex
    have hdoc : st.docExists id = true := by
      rw [GraphStore.docExists, List.any_eq_true]
      rcases hex with ⟨d, hd, hid⟩
      exact ⟨d, hd, by simpa using hid⟩
    rw [GraphStore.delete_document, if_pos hdoc]
    refine ⟨_, rfl, ?_, ?_, ?_⟩
    · rw [GraphStore.get_document_chunks, if_neg]
      rw [GraphStore.docExists]
      simp only [List.any_filter, List.any_eq_true]
      rintro ⟨d, hd, hp⟩
      simp at hp
    · intro c hc
      have := List.of_mem_filter hc
      simpa using this
    · intro e he
      have := List.of_mem_filter he
      rw [Bool.and_eq_true] at this
      constructor
      · rcases List.any_eq_true.mp this.1 with ⟨c, hc, hcp⟩
        exact ⟨c, hc, by simpa using hcp⟩
      · rcases List.any_eq_true.mp this.2 with ⟨c, hc, hcp⟩
        exact ⟨c, hc, by simpa using hcp⟩
  · intro hnone
    have hno : st.docExists id = false := by
      rw [GraphStore.docExists, List.any_eq_false]
      intro d hd
      simpa using hnone d hd
    simp [GraphStore.delete_document, hno]

/-- Witness for C7 at concrete inputs: deleting the one document of a
two-chunk store with an edge, and deleting an unknown id from that store. -/
theorem delete_document_spec_witness :
    (∃ st', (GraphStore.mk [⟨"d1", "f", 2⟩]
        [⟨0, "d1", "ab".toList, 0, none⟩, ⟨1, "d1", "cd".toList, 1, none⟩]
        [(0, 1)] 2).delete_document "d1" = Except.ok st' ∧
      st'.get_document_chunks "d1" = Except.error AppError.notFound ∧
      (∀ c ∈ st'.chunks, c.docId ≠ "d1") ∧
      (∀ e ∈ st'.edges, (∃ c ∈ st'.chunks, c.chunkId = e.1) ∧
        (∃ c ∈ st'.chunks, c.chunkId = e.2))) ∧
    (GraphStore.mk [⟨"d1", "f", 2⟩]
        [⟨0, "d1", "ab".toList, 0, none⟩, ⟨1, "d1", "cd".toList, 1, none⟩]
        [(0, 1)] 2).delete_document "nope" = Except.error AppError.notFound :=
  ⟨(delete_document_spec _ "d1").1 ⟨⟨"d1", "f", 2⟩, by simp, rfl⟩,
   (delete_document_spec _ "nope").2 (by simp)⟩

/-- Modelled from the spec: the Chunk nodes created for one source file of a
repository — ids are sequential from `startId`, and each chunk is tagged with
the file path and its index within the file (`file_chunk_index`). -/
def mkFileChunks (docId path : String) : Nat → Nat → List (List Char) → List StoredChunk
  | _, _, [] => []
  | startId, idx, piece :: rest =>
      ⟨startId, docId, piece, idx, some path⟩ ::
        mkFileChunks docId path (startId + 1) (idx + 1) rest

/-- Modelled from the spec: the `NEXT_IN_FILE` edges for one file — between
consecutive chunk ids of that same file only. -/
def fileEdges (startId count : Nat) : List (Nat × Nat) :=
  (List.range (count - 1)).map fun i => (startId + i, startId + i + 1)

/-- Modelled from the spec: repository ingestion over (file path, split pieces)
pairs — `backend/github_processor.py` is not in the sources; per the spec and
the documented schema, chunks of each file form their own `NEXT_IN_FILE`
chain, "not across file boundaries". Returns the created chunks, the created
edges, and the next free id. -/
def ingestFiles (docId : String) :
    Nat → List (String × List (List Char)) →
      List StoredChunk × List (Nat × Nat) × Nat
  | nextId, [] => ([], [], nextId)
  | nextId, f :: rest =>
      (mkFileChunks docId f.1 nextId 0 f.2 ++
         (ingestFiles docId (nextId + f.2.length) rest).1,
       fileEdges nextId f.2.length ++
         (ingestFiles docId (nextId + f.2.length) rest).2.1,
       (ingestFiles docId (nextId + f.2.length) rest).2.2)

lemma mem_mkFileChunks {docId path : String} :
    ∀ {startId idx : Nat} {pieces : List (List Char)} {c : StoredChunk},
      c ∈ mkFileChunks docId path startId idx pieces →
      c.file_path = some path ∧ startId ≤ c.chunkId ∧
        c.chunkId < startId + pieces.length := by
  intro startId idx pieces
  induction pieces generalizing startId idx with
  | nil =>
    intro c hc
    simp [mkFileChunks] at hc
  | cons p rest ih =>
    intro c hc
    rcases List.mem_cons.mp hc with rfl | hc'
    · exact ⟨rfl, le_refl _, by simp⟩
    · obtain ⟨h1, h2, h3⟩ := ih hc'
      exact ⟨h1, by omega, by simp only [List.length_cons]; omega⟩

lemma mem_fileEdges {startId count a b : Nat}
    (h : (a, b) ∈ fileEdges startId count) :
    startId ≤ a ∧ b = a + 1 ∧ b < startId + count := by
  rcases List.mem_map.mp h with ⟨i, hi, heq⟩
  rw [List.mem_range] at hi
  cases heq
  exact ⟨by omega, rfl, by omega⟩

lemma ingestFiles_chunk_lb (docId : String) :
    ∀ (files : List (String × List (List Char))) (nextId : Nat) (c : StoredChunk),
      c ∈ (ingestFiles docId nextId files).1 → nextId ≤ c.chunkId := by
  intro files
  induction files with
  | nil =>
    intro nextId c hc
    simp [ingestFiles] at hc
  | cons f rest ih =>
    intro nextId c hc
    rcases List.mem_append.mp hc with h | h
    · exact (mem_mkFileChunks h).2.1
    · have := ih (nextId + f.2.length) c h
      omega

lemma ingestFiles_edge_lb (docId : String) :
    ∀ (files : List (String × List (List Char))) (nextId a b : Nat),
      (a, b) ∈ (ingestFiles docId nextId files).2.1 → nextId ≤ a ∧ nextId ≤ b := by
  intro files
  induction files with
  | nil =>
    intro nextId a b he
    simp [ingestFiles] at he
  | cons f rest ih =>
    intro nextId a b he
    rcases List.mem_append.mp he with h | h
    · obtain ⟨h1, h2, h3⟩ := mem_fileEdges h
      omega
    · have := ih (nextId + f.2.length) a b h
      omega

/-- Claim C8: in repository ingestion, next-in-sequence (`NEXT_IN_FILE`) edges
between chunks are scoped per source file — every edge connects two chunks
carrying the same source file path, so no edge connects a chunk of one file to
a chunk of a different file (in particular never the last chunk of file A to
the first chunk of file B). -/
theorem repo_next_in_file_scoped (docId : String)
    (files : List (String × List (List Char))) (startId a b : Nat)
    (ca cb : StoredChunk)
    (he : (a, b) ∈ (ingestFiles docId startId files).2.1)
    (hca : ca ∈ (ingestFiles docId startId files).1)
    (hcb : cb ∈ (ingestFiles docId startId files).1)
    (ha : ca.chunkId = a) (hb : cb.chunkId = b) :
    ∃ path, ca.file_path = some path ∧ cb.file_path = some path := by
  induction files generalizing startId with
  | nil =>
    simp [ingestFiles] at he
  | cons f rest ih =>
    rcases List.mem_append.mp he with hef | her
    · obtain ⟨hal, hbeq, hbu⟩ := mem_fileEdges hef
      have hca' : ca ∈ mkFileChunks docId f.1 startId 0 f.2 := by
        rcases List.mem_append.mp hca with h | h
        · exact h
        · have := ingestFiles_chunk_lb docId rest (startId + f.2.length) ca h
          omega
      have hcb' : cb ∈ mkFileChunks docId f.1 startId 0 f.2 := by
        rcases List.mem_append.mp hcb with h | h
        · exact h
        · have := ingestFiles_chunk_lb docId rest (startId + f.2.length) cb h
          omega
      exact ⟨f.1, (mem_mkFileChunks hca').1, (mem_mkFileChunks hcb').1⟩
    · obtain ⟨hal, hbl⟩ := ingestFiles_edge_lb docId rest (startId + f.2.length) a b her
      have hca' : ca ∈ (ingestFiles docId (startId + f.2.length) rest).1 := by
        rcases List.mem_append.mp hca with h | h
        · have := (mem_mkFileChunks h).2.2
          omega
        · exact h
      have hcb' : cb ∈ (ingestFiles docId (startId + f.2.length) rest).1 := by
        rcases List.mem_append.mp hcb with h | h
        · have := (mem_mkFileChunks h).2.2
          omega
        · exact h
      exact ih (startId + f.2.length) her hca' hcb'

/-- Witness for C8 at a concrete input: a repository with file `"A"` split
into three pieces and file `"B"` into two; the edge `(0, 1)` connects two
chunks both tagged with file `"A"`. -/
theorem repo_next_in_file_scoped_witness :
    ∃ path,
      (StoredChunk.mk 0 "repo" "aaa".toList 0 (some "A")).file_path = some path ∧
      (StoredChunk.mk 1 "repo" "bbb".toList 1 (some "A")).file_path = some path :=
  repo_next_in_file_scoped "repo"
    [("A", ["aaa".toList, "bbb".toList, "ccc".toList]),
     ("B", ["ddd".toList, "eee".toList])] 0 0 1
    (StoredChunk.mk 0 "repo" "aaa".toList 0 (some "A"))
    (StoredChunk.mk 1 "repo" "bbb".toList 1 (some "A"))
    (by decide) (by decide) (by decide) rfl rfl

/-- A file enumerated during repository processing: its path, its size in
bytes, and its textual content. -/
structure RepoFile where
  path : String
  size : Nat
  content : List Char
deriving DecidableEq, Repr

/-- The per-file size ceiling of repository processing: "Maximum file size:
1MB — larger files are automatically skipped". -/
def MAX_FILE_SIZE : Nat := 1000000

/-- Modelled from the spec: per-file chunking during repository processing —
`backend/github_processor.py` is not in the sources; per the spec, files are
enumerated, any file over the size ceiling is skipped entirely (never
truncated), and each retained file's full content is split with the
configured splitter. -/
def repoFileChunks (s : SimpleTextSplitter) :
    List RepoFile → List (String × Option (List (List Char)))
  | [] => []
  | f :: rest =>
      if MAX_FILE_SIZE < f.size then repoFileChunks s rest
      else (f.path, s.split_text f.content) :: repoFileChunks s rest

/-- The final chunk count of a processed repository. -/
def repoChunkCount (s : SimpleTextSplitter) (files : List RepoFile) : Nat :=
  ((repoFileChunks s files).map fun p => (p.2.getD []).length).sum

/-- Claim C9: repository ingestion skips every file whose size exceeds the
configured ceiling entirely — it contributes no chunks and is never
truncated: removing an oversized file from the enumeration changes neither
the per-file chunk lists nor the final chunk count, so for a 3-file
repository with one oversized file the count derives only from the 2 retained
files. -/
theorem oversized_file_skipped (s : SimpleTextSplitter)
    (pre post : List RepoFile) (f : RepoFile) (hbig : MAX_FILE_SIZE < f.size) :
    repoFileChunks s (pre ++ f :: post) = repoFileChunks s (pre ++ post) ∧
    repoChunkCount s (pre ++ f :: post) = repoChunkCount s (pre ++ post) := by
  have h : repoFileChunks s (pre ++ f :: post) = repoFileChunks s (pre ++ post) := by
    induction pre with
    | nil =>
      simp only [List.nil_append, repoFileChunks]
      rw [if_pos hbig]
    | cons g pre ih =>
      simp only [List.cons_append, repoFileChunks, List.append_eq]
      rw [ih]
  exact ⟨h, by rw [repoChunkCount, h, repoChunkCount]⟩

/-- Witness for C9 at a concrete input: a 3-file repository whose middle file
exceeds the 1MB ceiling yields exactly the chunk lists (and count) of the two
retained files. -/
theorem oversized_file_skipped_witness :
    repoFileChunks ⟨4, 1⟩
        ([RepoFile.mk "a.py" 5 "aaaaa".toList] ++
          RepoFile.mk "big.bin" 2000000 "x".toList ::
            [RepoFile.mk "b.py" 5 "bbbbb".toList]) =
      repoFileChunks ⟨4, 1⟩
        ([RepoFile.mk "a.py" 5 "aaaaa".toList] ++
          [RepoFile.mk "b.py" 5 "bbbbb".toList]) ∧
    repoChunkCount ⟨4, 1⟩
        ([RepoFile.mk "a.py" 5 "aaaaa".toList] ++
          RepoFile.mk "big.bin" 2000000 "x".toList ::
            [RepoFile.mk "b.py" 5 "bbbbb".toList]) =
      repoChunkCount ⟨4, 1⟩
        ([RepoFile.mk "a.py" 5 "aaaaa".toList] ++
          [RepoFile.mk "b.py" 5 "bbbbb".toList]) :=
  oversized_file_skipped ⟨4, 1⟩ [RepoFile.mk "a.py" 5 "aaaaa".toList]
    [RepoFile.mk "b.py" 5 "bbbbb".toList]
    (RepoFile.mk "big.bin" 2000000 "x".toList) (by decide)

end GraphRAG
